import Mathlib

/-!
Shallow embedding of `ptsa/data/filters/MorletWaveletFilter.py` and proofs of
the specification's claims about it.

The filter decomposes a multichannel time series with a bank of Morlet
wavelets via FFT convolution, returning power and/or phase.  Machine floats
are modelled by real numbers; numpy complex arrays by `List ℂ` tagged with a
dtype where precision matters.  External collaborators (scipy's `fft`/`ifft`,
`ptsa.wavelet.morlet_multi`, the numpy complex64 assignment cast, and the
`ResampleFilter`) are parameters of the embedding, bundled in `Externals`.
-/

namespace Ptsa

/-- Numpy dtype tags that matter to the embedding: the wavelet-coefficient
buffer is allocated as `np.complex64` (line 223), the wavelet FFT bank as
`np.complex`, i.e. double precision (line 194), and the output arrays as
`np.float32` (line 82). -/
inductive NPDType where
  | complex64
  | complex128
  | float32
  deriving DecidableEq, Repr

/-- A numpy 1-D complex array together with its dtype tag. -/
structure CArr where
  dtype : NPDType
  vals : List ℂ

/-- The filter's configuration descriptors (lines 35–42): `freqs`, `width`,
`output`, `frequency_dim_pos`, `verbose`. -/
structure MorletConfig where
  freqs : List ℝ
  width : ℕ
  output : String
  frequency_dim_pos : ℤ
  verbose : Bool

/-- The labeled input array: an N-dimensional series whose last axis is time,
with a scalar samplerate coordinate.  `data` maps each leading index tuple to
the corresponding 1-D time signal; `isDataArray` records whether the input is
an `xr.DataArray` instance (tested at line 119). -/
structure TimeSeriesX where
  leadingShape : List ℕ
  leadingDims : List String
  timeLen : ℕ
  timeCoord : List ℝ
  samplerate : ℝ
  isDataArray : Bool
  data : List ℕ → List ℂ

/-- External collaborators used by the filter but defined outside this file's
source: scipy's `fft(x, n)` and `ifft`, `ptsa.wavelet.morlet_multi`, the
numpy complex128→complex64 cast performed by the assignment at line 241, and
the `ResampleFilter` (only its resampled time coordinate is consumed). -/
structure Externals where
  fft : List ℂ → ℕ → List ℂ
  ifft : List ℂ → List ℂ
  morlet_multi : List ℝ → ℕ → ℝ → List (List ℂ)
  castC64 : ℂ → ℂ
  resample : List ℝ → List ℝ

/-- The length contracts of the external FFT routines: `fft(x, n)` returns `n`
points, `ifft` preserves length. -/
structure ExternalsOk (E : Externals) : Prop where
  fft_length : ∀ x n, (E.fft x n).length = n
  ifft_length : ∀ x, (E.ifft x).length = x.length

/-- `compute_power` (lines 92–94): squared magnitude of each coefficient,
phase slot empty. -/
noncomputable def compute_power (wavelet_coef_array : List ℂ) :
    Option (List ℝ) × Option (List ℝ) :=
  (some (wavelet_coef_array.map fun c => Complex.abs c ^ 2), none)

/-- `compute_phase` (lines 97–98): `np.angle` of each coefficient, power slot
empty.  `np.angle c = atan2(imag c, real c)`, which is `Complex.arg`. -/
noncomputable def compute_phase (wavelet_coef_array : List ℂ) :
    Option (List ℝ) × Option (List ℝ) :=
  (none, some (wavelet_coef_array.map Complex.arg))

/-- `compute_power_and_phase` (lines 100–101): `real² + imag²` together with
`np.angle`. -/
noncomputable def compute_power_and_phase (wavelet_coef_array : List ℂ) :
    Option (List ℝ) × Option (List ℝ) :=
  (some (wavelet_coef_array.map fun c => c.re ^ 2 + c.im ^ 2),
   some (wavelet_coef_array.map Complex.arg))

/-- The string dispatch in `__init__` (lines 52–57) selecting
`self.compute_power_and_phase_fcn`. -/
noncomputable def compute_power_and_phase_fcn (output : String) :
    List ℂ → Option (List ℝ) × Option (List ℝ) :=
  if output = "power" then compute_power
  else if output = "phase" then compute_phase
  else compute_power_and_phase

/-- The spec's four-quadrant arctangent `atan2(y, x)` with range `(−π, π]`,
stated from the spec's words so it can be compared with the code's phase
(numpy `angle`, embedded as `Complex.arg`). -/
noncomputable def atan2 (y x : ℝ) : ℝ :=
  if 0 < x then Real.arctan (y / x)
  else if x < 0 then
    (if 0 ≤ y then Real.arctan (y / x) + Real.pi else Real.arctan (y / x) - Real.pi)
  else if 0 < y then Real.pi / 2
  else if y < 0 then -(Real.pi / 2)
  else 0

/-- `all_but_time_iterator` (lines 59–64): the cartesian product of the ranges
of all leading axes, in lexicographic order. -/
def index_tuples : List ℕ → List (List ℕ)
  | [] => [[]]
  | s :: rest => (List.range s).flatMap fun i => (index_tuples rest).map fun t => i :: t

/-- Modelled from the spec: `ptsa.wavelet.next_pow2` is imported by the filter
(line 10) but its source is not under src/.  Per the spec (§4.1),
`convolutionSizePow2 = nextPowerOfTwo(convolutionSize)` is the smallest power
of two at or above its argument; the code computes it as
`np.power(2, next_pow2(n))` (line 190), so `next_pow2` returns the exponent:
the least `e` with `n ≤ 2 ^ e`. -/
def next_pow2 (n : ℕ) : ℕ := Nat.clog 2 n

/-- The failures `compute_wavelet_ffts` can raise: the explicit `ValueError`
of lines 179–183 (carrying the time-series length and the longest wavelet
length), and Python's `max()` failing on an empty wavelet bank (line 175). -/
inductive WaveletError where
  | insufficientSignalLength (l_ts l_w : ℕ)
  | emptyWaveletBank
  deriving DecidableEq, Repr

/-- The message of the `ValueError` raised at lines 180–183. -/
def insufficient_signal_message (l_ts l_w : ℕ) : String :=
  "Time series length (l_ts=" ++ toString l_ts ++
    ") is shorter than maximum wavelet length (l_w=" ++ toString l_w ++
    "). Please use longer time series or increase lowest wavelet frequency "

/-- The rendered message of a `WaveletError`. -/
def WaveletError.message : WaveletError → String
  | .insufficientSignalLength l_ts l_w => insufficient_signal_message l_ts l_w
  | .emptyWaveletBank => "max() arg is an empty sequence"

/-- The result of `compute_wavelet_ffts` (line 202): the bank of padded kernel
FFTs, each kernel's own valid convolution length, and the shared padded FFT
length. -/
structure WaveletFfts where
  wavelet_fft_array : List CArr
  convolution_size_array : List ℕ
  convolution_size_pow2 : ℕ

/-- `compute_wavelet_ffts` (lines 162–202): build the wavelet bank, check the
longest kernel against the time-axis length, and precompute each kernel's FFT
zero-padded to the shared power-of-two length. -/
def compute_wavelet_ffts (E : Externals) (cfg : MorletConfig) (ts : TimeSeriesX) :
    Except WaveletError WaveletFfts :=
  let wavelets := E.morlet_multi cfg.freqs cfg.width ts.samplerate
  match (wavelets.map List.length).max? with
  | none => .error .emptyWaveletBank
  | some s_w =>
    let time_series_length := ts.timeLen
    if s_w > time_series_length then
      .error (.insufficientSignalLength time_series_length s_w)
    else
      let s_d := ts.timeLen
      let convolution_size := s_w + s_d - 1
      let convolution_size_pow2 := 2 ^ next_pow2 convolution_size
      .ok { wavelet_fft_array :=
              wavelets.map fun w => ⟨.complex128, E.fft w convolution_size_pow2⟩,
            convolution_size_array := wavelets.map fun w => w.length + s_d - 1,
            convolution_size_pow2 := convolution_size_pow2 }

/-- A preallocated numpy output array (shape, dtype, and the rows written by
the main loop; `none` marks a cell never written, i.e. `np.empty` garbage). -/
structure RawArr where
  shape : List ℕ
  dtype : NPDType
  rows : List ℕ → ℕ → Option (List ℝ)

/-- `allocate_output_arrays` (lines 81–90): float32 arrays of shape
`leading ++ [num_freqs, time_axis_size]`; only the requested outputs are
allocated, anything other than "power"/"phase" allocating both. -/
def allocate_output_arrays (cfg : MorletConfig) (ts : TimeSeriesX)
    (time_axis_size : ℕ) : Option RawArr × Option RawArr :=
  let shape := ts.leadingShape ++ [cfg.freqs.length, time_axis_size]
  let empty : RawArr := ⟨shape, .float32, fun _ _ => none⟩
  if cfg.output = "power" then (some empty, none)
  else if cfg.output = "phase" then (none, some empty)
  else (some empty, some empty)

/-- Lines 232–235: FFT the signal slice padded to the shared length, multiply
by kernel `w`'s FFT elementwise, and inverse-transform. -/
def signal_wavelet_conv (E : Externals) (ts : TimeSeriesX) (wf : WaveletFfts)
    (idx_tuple : List ℕ) (w : ℕ) : List ℂ :=
  let signal := ts.data idx_tuple
  let signal_fft := E.fft signal wf.convolution_size_pow2
  E.ifft (List.zipWith (· * ·)
    (wf.wavelet_fft_array.getD w ⟨.complex128, []⟩).vals signal_fft)

/-- Lines 238–239: `start_offset = int((convolution_size_array[w] −
time_axis_size) / 2)` and `end_offset = start_offset + time_axis_size`.
For the valid inputs the filter accepts the subtraction is nonnegative, so
Python's truncating `int(… / 2)` is floor division. -/
def trim_offsets (valid_length time_axis_size : ℕ) : ℕ × ℕ :=
  let start_offset := (valid_length - time_axis_size) / 2
  (start_offset, start_offset + time_axis_size)

/-- Line 241, right-hand side: the centered slice
`signal_wavelet_conv[start_offset:end_offset]`. -/
def trimmed_coefs (E : Externals) (ts : TimeSeriesX) (wf : WaveletFfts)
    (idx_tuple : List ℕ) (w : ℕ) : List ℂ :=
  let se := trim_offsets (wf.convolution_size_array.getD w 0) ts.timeLen
  ((signal_wavelet_conv E ts wf idx_tuple w).take se.2).drop se.1

/-- Lines 223 and 241: the preallocated `np.complex64` buffer after the
trimmed slice (computed in double precision) is assigned into it; the
assignment's precision cast is the external `castC64`. -/
def wavelet_coef_single_array (E : Externals) (ts : TimeSeriesX)
    (wf : WaveletFfts) (idx_tuple : List ℕ) (w : ℕ) : CArr :=
  ⟨.complex64, (trimmed_coefs E ts wf idx_tuple w).map E.castC64⟩

/-- Lines 230–248, body of the inner loop for slice `idx_tuple` and kernel
`w`: the selected power/phase function applied to the complex64 buffer. -/
noncomputable def filter_loop_body (E : Externals) (cfg : MorletConfig)
    (ts : TimeSeriesX) (wf : WaveletFfts) (idx_tuple : List ℕ) (w : ℕ) :
    Option (List ℝ) × Option (List ℝ) :=
  compute_power_and_phase_fcn cfg.output
    (wavelet_coef_single_array E ts wf idx_tuple w).vals

/-- A labeled output array as assembled by `build_output_arrays`: dims (after
any frequency-axis transpose), per-dim sizes, coordinates, and the data rows
carried over from the raw array. -/
structure OutArray where
  dims : List String
  sizes : List ℕ
  freqCoord : List ℝ
  timeCoord : List ℝ
  samplerate : ℝ
  rows : List ℕ → ℕ → Option (List ℝ)
  dtype : NPDType

/-- `xarray`'s `transpose(*new_dims)` on the shape level: the size of each
dimension is looked up by name in the original dims. -/
def transpose_sizes (dims : List String) (sizes : List ℕ)
    (new_dims : List String) : List ℕ :=
  new_dims.map fun d => sizes.getD (dims.indexOf d) 0

/-- Lines 121–135: with `dims = leading ++ ["frequency", "time"]`, the
requested frequency position is normalized to
`(len(dims) + frequency_dim_pos) % len(dims)` and, when it differs from the
internal index of "frequency", the dims list with "frequency" moved there;
otherwise the empty list (`transposed_dims` stays `[]`, meaning no
transpose). -/
def transposed_output_dims (leading : List String) (p : ℤ) : List String :=
  let dims := leading ++ ["frequency", "time"]
  let n : ℤ := (dims.length : ℤ)
  let frequency_dim_pos : ℕ := ((n + p) % n).toNat
  let orig_frequency_idx := dims.indexOf "frequency"
  if frequency_dim_pos ≠ orig_frequency_idx then
    (dims.take orig_frequency_idx ++ dims.drop (orig_frequency_idx + 1)).insertIdx
      frequency_dim_pos "frequency"
  else []

/-- The dims list each output of `build_output_arrays` ends up with: the
transposed dims when a transpose was requested, the internal dims
otherwise. -/
def final_output_dims (leading : List String) (p : ℤ) : List String :=
  if (transposed_output_dims leading p).length ≠ 0 then
    transposed_output_dims leading p
  else leading ++ ["frequency", "time"]

/-- `build_output_arrays` (lines 116–160): only for `xr.DataArray` inputs
(otherwise the Python function falls through and returns `None`), attach dims
`leading ++ ["frequency", "time"]`, normalize the requested frequency-axis
position by `(len(dims) + pos) % len(dims)`, and transpose when it differs
from the internal position of "frequency". -/
def build_output_arrays (cfg : MorletConfig) (ts : TimeSeriesX)
    (wavelet_pow_array wavelet_phase_array : Option RawArr)
    (time_axis : List ℝ) : Option (Option OutArray × Option OutArray) :=
  if ts.isDataArray then
    let dims := ts.leadingDims ++ ["frequency", "time"]
    let transposed_dims := transposed_output_dims ts.leadingDims cfg.frequency_dim_pos
    let mk : RawArr → OutArray := fun a =>
      { dims := if transposed_dims.length ≠ 0 then transposed_dims else dims
        sizes := if transposed_dims.length ≠ 0 then
            transpose_sizes dims a.shape transposed_dims
          else a.shape
        freqCoord := cfg.freqs
        timeCoord := time_axis
        samplerate := ts.samplerate
        rows := a.rows
        dtype := a.dtype }
    some (wavelet_pow_array.map mk, wavelet_phase_array.map mk)
  else none

/-- `resample_time_axis` (lines 66–79): when `self.resamplerate` (an attribute
the descriptor list never declares; passed here explicitly) is positive, run
the external `ResampleFilter` on `time_series[0, 0, :]` and return its time
coordinate, else the original; the original is always returned second. -/
noncomputable def resample_time_axis (E : Externals) (ts : TimeSeriesX)
    (resamplerate : ℝ) : List ℝ × List ℝ :=
  if 0 < resamplerate then (E.resample ts.timeCoord, ts.timeCoord)
  else (ts.timeCoord, ts.timeCoord)

/-- The diagnostic printed at lines 250–251; the elapsed wall-clock time is
outside the embedding. -/
def filter_verbose_log (cfg : MorletConfig) : List String :=
  if cfg.verbose then ["total time wavelet loop: "] else []

/-- The power array after the main double loop (lines 230–248): cell
`(idx_tuple, w)` holds the power row written by `store` when the loop reaches
it; cells outside the iteration ranges keep their `np.empty` garbage
(`none`), as do all cells when the power array was not allocated. -/
noncomputable def filter_raw_pow (E : Externals) (cfg : MorletConfig)
    (ts : TimeSeriesX) (wf : WaveletFfts) : Option RawArr :=
  (allocate_output_arrays cfg ts ts.timeLen).1.map fun a =>
    { a with rows := fun idx_tuple w =>
        if idx_tuple ∈ index_tuples ts.leadingShape ∧
            w < wf.wavelet_fft_array.length then
          (filter_loop_body E cfg ts wf idx_tuple w).1
        else none }

/-- The phase array after the main double loop, analogously to
`filter_raw_pow`. -/
noncomputable def filter_raw_phase (E : Externals) (cfg : MorletConfig)
    (ts : TimeSeriesX) (wf : WaveletFfts) : Option RawArr :=
  (allocate_output_arrays cfg ts ts.timeLen).2.map fun a =>
    { a with rows := fun idx_tuple w =>
        if idx_tuple ∈ index_tuples ts.leadingShape ∧
            w < wf.wavelet_fft_array.length then
          (filter_loop_body E cfg ts wf idx_tuple w).2
        else none }

/-- `filter` (lines 204–253): precompute the wavelet FFTs, allocate the
requested outputs, run the double loop over leading-index tuples and kernels
filling the arrays, and assemble the labeled outputs with the original time
axis (line 216).  The `ValueError` of `compute_wavelet_ffts` aborts the call
with no output. -/
noncomputable def MorletWaveletFilter.filter (E : Externals)
    (cfg : MorletConfig) (ts : TimeSeriesX) :
    Except WaveletError (Option (Option OutArray × Option OutArray)) :=
  match compute_wavelet_ffts E cfg ts with
  | .error e => .error e
  | .ok wf =>
    .ok (build_output_arrays cfg ts (filter_raw_pow E cfg ts wf)
      (filter_raw_phase E cfg ts wf) ts.timeCoord)

/-- The wavelet FFT bank actually produced for a given input (empty when
`compute_wavelet_ffts` fails). -/
def wavelet_fft_bank (E : Externals) (cfg : MorletConfig) (ts : TimeSeriesX) :
    List CArr :=
  match compute_wavelet_ffts E cfg ts with
  | .ok wf => wf.wavelet_fft_array
  | .error _ => []

/-! ### Concrete instances used to exercise the embedding -/

/-- A concrete assignment of the external collaborators: a one-kernel wavelet
bank of length one, constant-one FFTs of the requested length, identity
inverse FFT and cast, and a resampler that returns a one-point time axis. -/
def exampleExternals : Externals where
  fft := fun _ n => List.replicate n 1
  ifft := fun x => x
  morlet_multi := fun _ _ _ => [[1]]
  castC64 := fun c => c
  resample := fun _ => [0]

theorem exampleExternals_ok : ExternalsOk exampleExternals :=
  ⟨fun _ n => List.length_replicate n 1, fun _ => rfl⟩

/-- A concrete two-sample input series with one leading (events) axis. -/
def exampleSeries : TimeSeriesX where
  leadingShape := [1]
  leadingDims := ["events"]
  timeLen := 2
  timeCoord := [0, 1]
  samplerate := 250
  isDataArray := true
  data := fun _ => [1, 1]

/-- A concrete configuration requesting both outputs (empty mode string). -/
def exampleConfig : MorletConfig where
  freqs := [10]
  width := 5
  output := ""
  frequency_dim_pos := 0
  verbose := true

/-! ### Helper lemmas about `compute_wavelet_ffts` -/

/-- When the longest kernel fits in the time axis, `compute_wavelet_ffts`
succeeds and returns exactly the bank built at lines 186–202. -/
theorem compute_wavelet_ffts_eq_ok (E : Externals) (cfg : MorletConfig)
    (ts : TimeSeriesX) (s_w : ℕ)
    (hmax : ((E.morlet_multi cfg.freqs cfg.width ts.samplerate).map List.length).max? = some s_w)
    (hlen : s_w ≤ ts.timeLen) :
    compute_wavelet_ffts E cfg ts = .ok
      { wavelet_fft_array := (E.morlet_multi cfg.freqs cfg.width ts.samplerate).map
          fun w => ⟨.complex128, E.fft w (2 ^ next_pow2 (s_w + ts.timeLen - 1))⟩,
        convolution_size_array := (E.morlet_multi cfg.freqs cfg.width ts.samplerate).map
          fun w => w.length + ts.timeLen - 1,
        convolution_size_pow2 := 2 ^ next_pow2 (s_w + ts.timeLen - 1) } := by
  unfold compute_wavelet_ffts
  simp only [hmax]
  rw [if_neg (by omega)]

/-- When the longest kernel exceeds the time axis, `compute_wavelet_ffts`
raises the error carrying both lengths. -/
theorem compute_wavelet_ffts_eq_error (E : Externals) (cfg : MorletConfig)
    (ts : TimeSeriesX) (s_w : ℕ)
    (hmax : ((E.morlet_multi cfg.freqs cfg.width ts.samplerate).map List.length).max? = some s_w)
    (hlen : ts.timeLen < s_w) :
    compute_wavelet_ffts E cfg ts =
      .error (.insufficientSignalLength ts.timeLen s_w) := by
  unfold compute_wavelet_ffts
  simp only [hmax]
  rw [if_pos (by omega)]

/-- `exampleSeries` with the `xr.DataArray` instance test failing. -/
def exampleSeriesNonDA : TimeSeriesX := { exampleSeries with isDataArray := false }

/-! ### Claim theorems -/

/-- C8: for every input and configuration, the `(power, phase)` results
returned by `filter` are identical whether `verbose` is true or false; the
flag only selects the timing diagnostic of lines 250–251, which is outside
the returned value. -/
theorem verbose_has_no_effect_on_results (E : Externals) (cfg : MorletConfig)
    (ts : TimeSeriesX) :
    MorletWaveletFilter.filter E { cfg with verbose := true } ts =
      MorletWaveletFilter.filter E { cfg with verbose := false } ts := rfl

/-- C2: with `s_w` the longest wavelet kernel length, the filter fails exactly
when `s_w` strictly exceeds the time-axis length, producing (only) the
`ValueError` of lines 179–183 that carries both lengths, whose message names
both; when the time-axis length at least equals `s_w` (including exact
equality) the FFT precomputation succeeds. -/
theorem insufficient_signal_length_check (E : Externals) (cfg : MorletConfig)
    (ts : TimeSeriesX) (s_w : ℕ)
    (hmax : ((E.morlet_multi cfg.freqs cfg.width ts.samplerate).map
      List.length).max? = some s_w) :
    (ts.timeLen < s_w →
        MorletWaveletFilter.filter E cfg ts =
          .error (.insufficientSignalLength ts.timeLen s_w)) ∧
      (s_w ≤ ts.timeLen →
        ∃ wf, compute_wavelet_ffts E cfg ts = .ok wf) ∧
      ∃ p q r, (WaveletError.insufficientSignalLength ts.timeLen s_w).message =
        p ++ toString ts.timeLen ++ q ++ toString s_w ++ r := by
  refine ⟨fun h => ?_,
    fun h => ⟨_, compute_wavelet_ffts_eq_ok E cfg ts s_w hmax h⟩,
    "Time series length (l_ts=",
    ") is shorter than maximum wavelet length (l_w=",
    "). Please use longer time series or increase lowest wavelet frequency ",
    rfl⟩
  unfold MorletWaveletFilter.filter
  rw [compute_wavelet_ffts_eq_error E cfg ts s_w hmax h]

theorem insufficient_signal_length_check_witness :
    (exampleSeries.timeLen < 1 →
        MorletWaveletFilter.filter exampleExternals exampleConfig exampleSeries =
          .error (.insufficientSignalLength exampleSeries.timeLen 1)) ∧
      (1 ≤ exampleSeries.timeLen →
        ∃ wf, compute_wavelet_ffts exampleExternals exampleConfig exampleSeries = .ok wf) ∧
      ∃ p q r,
        (WaveletError.insufficientSignalLength exampleSeries.timeLen 1).message =
          p ++ toString exampleSeries.timeLen ++ q ++ toString 1 ++ r :=
  insufficient_signal_length_check exampleExternals exampleConfig exampleSeries 1 rfl

/-- C9: a non-`DataArray` input reaches the end of `filter` with the whole
computation done (the FFT bank was built successfully), but
`build_output_arrays` falls through its `isinstance` guard and `filter`
returns Python's implicit `None` instead of the promised tuple. -/
theorem non_dataarray_input_returns_none (E : Externals) (cfg : MorletConfig)
    (ts : TimeSeriesX) (s_w : ℕ)
    (hmax : ((E.morlet_multi cfg.freqs cfg.width ts.samplerate).map
      List.length).max? = some s_w)
    (hlen : s_w ≤ ts.timeLen)
    (hda : ts.isDataArray = false) :
    (∃ wf, compute_wavelet_ffts E cfg ts = .ok wf) ∧
      MorletWaveletFilter.filter E cfg ts = .ok none := by
  refine ⟨⟨_, compute_wavelet_ffts_eq_ok E cfg ts s_w hmax hlen⟩, ?_⟩
  unfold MorletWaveletFilter.filter
  rw [compute_wavelet_ffts_eq_ok E cfg ts s_w hmax hlen]
  unfold build_output_arrays
  simp [hda]

theorem non_dataarray_input_returns_none_witness :
    (∃ wf, compute_wavelet_ffts exampleExternals exampleConfig exampleSeriesNonDA = .ok wf) ∧
      MorletWaveletFilter.filter exampleExternals exampleConfig exampleSeriesNonDA = .ok none :=
  non_dataarray_input_returns_none exampleExternals exampleConfig exampleSeriesNonDA 1
    rfl (by decide) rfl

/-- C10: the trimmed coefficients are assigned into the `np.complex64` buffer
of line 223 — applying the external complex128→complex64 cast — before the
power/phase function sees them, so every power/phase value is computed from
the down-cast coefficients, while the wavelet FFT bank itself is kept in
double precision (`np.complex`, line 194). -/
theorem single_precision_coefficient_buffer (E : Externals) (cfg : MorletConfig)
    (ts : TimeSeriesX) (wf : WaveletFfts) (idx_tuple : List ℕ) (w : ℕ) :
    (wavelet_coef_single_array E ts wf idx_tuple w).dtype = .complex64 ∧
      (wavelet_coef_single_array E ts wf idx_tuple w).vals =
        (trimmed_coefs E ts wf idx_tuple w).map E.castC64 ∧
      filter_loop_body E cfg ts wf idx_tuple w =
        compute_power_and_phase_fcn cfg.output
          ((trimmed_coefs E ts wf idx_tuple w).map E.castC64) ∧
      ∀ arr ∈ wavelet_fft_bank E cfg ts, arr.dtype = .complex128 := by
  refine ⟨rfl, rfl, rfl, ?_⟩
  intro arr harr
  unfold wavelet_fft_bank at harr
  cases hmx : ((E.morlet_multi cfg.freqs cfg.width ts.samplerate).map
      List.length).max? with
  | none =>
    have hbank : compute_wavelet_ffts E cfg ts = .error .emptyWaveletBank := by
      unfold compute_wavelet_ffts
      simp only [hmx]
    rw [hbank] at harr
    simp at harr
  | some s_w =>
    by_cases hgt : ts.timeLen < s_w
    · rw [compute_wavelet_ffts_eq_error E cfg ts s_w hmx hgt] at harr
      simp at harr
    · rw [compute_wavelet_ffts_eq_ok E cfg ts s_w hmx (by omega)] at harr
      simp only [List.mem_map] at harr
      obtain ⟨k, _, rfl⟩ := harr
      rfl

/-- C6: the padded FFT length is the least power of two at or above
`maxKernelLength + timeLength − 1`; every kernel's FFT is taken at that one
shared length, and alongside kernel `i` its own valid convolution length
`kernelLength_i + timeLength − 1` is stored. -/
theorem shared_fft_length_per_kernel_valid_length (E : Externals)
    (cfg : MorletConfig) (ts : TimeSeriesX) (s_w : ℕ)
    (hE : ExternalsOk E)
    (hmax : ((E.morlet_multi cfg.freqs cfg.width ts.samplerate).map
      List.length).max? = some s_w)
    (hlen : s_w ≤ ts.timeLen) :
    ∃ wf, compute_wavelet_ffts E cfg ts = .ok wf ∧
      wf.convolution_size_pow2 = 2 ^ next_pow2 (s_w + ts.timeLen - 1) ∧
      s_w + ts.timeLen - 1 ≤ wf.convolution_size_pow2 ∧
      (∀ m : ℕ, s_w + ts.timeLen - 1 ≤ 2 ^ m → wf.convolution_size_pow2 ≤ 2 ^ m) ∧
      (∀ arr ∈ wf.wavelet_fft_array, arr.vals.length = wf.convolution_size_pow2) ∧
      wf.convolution_size_array =
        (E.morlet_multi cfg.freqs cfg.width ts.samplerate).map
          fun k => k.length + ts.timeLen - 1 := by
  refine ⟨_, compute_wavelet_ffts_eq_ok E cfg ts s_w hmax hlen, rfl, ?_, ?_, ?_, rfl⟩
  · exact Nat.le_pow_clog one_lt_two _
  · intro m hm
    exact Nat.pow_le_pow_right (by norm_num)
      ((Nat.le_pow_iff_clog_le one_lt_two).mp hm)
  · intro arr harr
    rw [List.mem_map] at harr
    obtain ⟨k, _, rfl⟩ := harr
    exact hE.fft_length k _

theorem shared_fft_length_per_kernel_valid_length_witness :
    ∃ wf, compute_wavelet_ffts exampleExternals exampleConfig exampleSeries = .ok wf ∧
      wf.convolution_size_pow2 = 2 ^ next_pow2 (1 + exampleSeries.timeLen - 1) ∧
      1 + exampleSeries.timeLen - 1 ≤ wf.convolution_size_pow2 ∧
      (∀ m : ℕ, 1 + exampleSeries.timeLen - 1 ≤ 2 ^ m →
        wf.convolution_size_pow2 ≤ 2 ^ m) ∧
      (∀ arr ∈ wf.wavelet_fft_array, arr.vals.length = wf.convolution_size_pow2) ∧
      wf.convolution_size_array =
        (exampleExternals.morlet_multi exampleConfig.freqs exampleConfig.width
          exampleSeries.samplerate).map
          fun k => k.length + exampleSeries.timeLen - 1 :=
  shared_fft_length_per_kernel_valid_length exampleExternals exampleConfig
    exampleSeries 1 exampleExternals_ok rfl (by decide)

/-- Whatever the output mode, each row produced by the loop body has the
length of the trimmed coefficient slice (each mode maps elementwise over the
complex64 buffer). -/
theorem filter_loop_body_row_length (E : Externals) (cfg : MorletConfig)
    (ts : TimeSeriesX) (wf : WaveletFfts) (idx_tuple : List ℕ) (w : ℕ) :
    (∀ r, (filter_loop_body E cfg ts wf idx_tuple w).1 = some r →
      r.length = (trimmed_coefs E ts wf idx_tuple w).length) ∧
    (∀ r, (filter_loop_body E cfg ts wf idx_tuple w).2 = some r →
      r.length = (trimmed_coefs E ts wf idx_tuple w).length) := by
  unfold filter_loop_body compute_power_and_phase_fcn wavelet_coef_single_array
  by_cases h1 : cfg.output = "power"
  · simp [h1, compute_power]
  · by_cases h2 : cfg.output = "phase"
    · simp [h1, h2, compute_phase]
    · simp [h1, h2, compute_power_and_phase]

/-- The convolution of a signal slice with kernel `w` has the shared padded
FFT length. -/
theorem signal_wavelet_conv_length (E : Externals) (ts : TimeSeriesX)
    (wf : WaveletFfts) (idx_tuple : List ℕ) (w : ℕ)
    (hE : ExternalsOk E)
    (hw : w < wf.wavelet_fft_array.length)
    (hrow : ∀ arr ∈ wf.wavelet_fft_array,
      arr.vals.length = wf.convolution_size_pow2) :
    (signal_wavelet_conv E ts wf idx_tuple w).length = wf.convolution_size_pow2 := by
  unfold signal_wavelet_conv
  rw [hE.ifft_length, List.length_zipWith, hE.fft_length,
    List.getD_eq_getElem _ _ hw, hrow _ (List.getElem_mem hw), Nat.min_self]

/-- Every output assembled by `build_output_arrays` carries the rows of one of
the raw arrays passed in. -/
theorem build_output_arrays_rows (cfg : MorletConfig) (ts : TimeSeriesX)
    (pow phase : Option RawArr) (tax : List ℝ)
    (out : Option OutArray × Option OutArray) (arr : OutArray)
    (h : build_output_arrays cfg ts pow phase tax = some out)
    (har : out.1 = some arr ∨ out.2 = some arr) :
    ∃ a : RawArr, (pow = some a ∨ phase = some a) ∧ arr.rows = a.rows := by
  by_cases hda : ts.isDataArray = true
  · unfold build_output_arrays at h
    rw [if_pos hda, Option.some.injEq] at h
    subst h
    cases har with
    | inl h1 =>
      rw [Option.map_eq_some'] at h1
      obtain ⟨a, ha, rfl⟩ := h1
      exact ⟨a, Or.inl ha, rfl⟩
    | inr h2 =>
      rw [Option.map_eq_some'] at h2
      obtain ⟨a, ha, rfl⟩ := h2
      exact ⟨a, Or.inr ha, rfl⟩
  · unfold build_output_arrays at h
    rw [if_neg hda] at h
    exact absurd h (by simp)

/-- C1: for a valid input (time axis at least as long as the longest kernel),
the trim of lines 238–241 — `start_offset = ⌊(validLength[w] − timeLength)/2⌋`,
`end_offset = start_offset + timeLength` — always selects exactly `timeLength`
coefficients, and hence every row stored in any returned power/phase output
has the original time-axis length. -/
theorem trim_yields_original_time_length (E : Externals) (cfg : MorletConfig)
    (ts : TimeSeriesX) (s_w : ℕ)
    (hE : ExternalsOk E)
    (hmax : ((E.morlet_multi cfg.freqs cfg.width ts.samplerate).map
      List.length).max? = some s_w)
    (hlen : s_w ≤ ts.timeLen)
    (hker : ∀ k ∈ E.morlet_multi cfg.freqs cfg.width ts.samplerate, k ≠ []) :
    ∃ wf, compute_wavelet_ffts E cfg ts = .ok wf ∧
      (∀ idx_tuple w, w < wf.convolution_size_array.length →
        (trimmed_coefs E ts wf idx_tuple w).length = ts.timeLen) ∧
      ∀ out arr, MorletWaveletFilter.filter E cfg ts = .ok (some out) →
        out.1 = some arr ∨ out.2 = some arr →
        ∀ idx_tuple w r, arr.rows idx_tuple w = some r →
          r.length = ts.timeLen := by
  have hok := compute_wavelet_ffts_eq_ok E cfg ts s_w hmax hlen
  have hbound := (List.max?_eq_some_iff'.mp hmax).2
  set W := E.morlet_multi cfg.freqs cfg.width ts.samplerate with hW
  set P := 2 ^ next_pow2 (s_w + ts.timeLen - 1) with hP
  set WF : WaveletFfts :=
    { wavelet_fft_array := W.map fun k => ⟨.complex128, E.fft k P⟩,
      convolution_size_array := W.map fun k => k.length + ts.timeLen - 1,
      convolution_size_pow2 := P } with hWF
  have hrow : ∀ arr ∈ WF.wavelet_fft_array,
      arr.vals.length = WF.convolution_size_pow2 := by
    intro arr harr
    simp only [hWF, List.mem_map] at harr
    obtain ⟨k, _, rfl⟩ := harr
    exact hE.fft_length k P
  have htrim : ∀ idx_tuple w, w < WF.convolution_size_array.length →
      (trimmed_coefs E ts WF idx_tuple w).length = ts.timeLen := by
    intro idx_tuple w hw
    have hwW : w < W.length := by simpa [hWF] using hw
    have hmem : W[w] ∈ W := List.getElem_mem hwW
    have hk1 : 1 ≤ W[w].length := List.length_pos.mpr (hker _ hmem)
    have hks : W[w].length ≤ s_w := hbound _ (List.mem_map_of_mem _ hmem)
    have hvl : WF.convolution_size_array.getD w 0 =
        W[w].length + ts.timeLen - 1 := by
      simp only [hWF]
      rw [List.getD_eq_getElem _ _ (by simpa using hwW), List.getElem_map]
    have hp2 : s_w + ts.timeLen - 1 ≤ P := Nat.le_pow_clog one_lt_two _
    have hconv : (signal_wavelet_conv E ts WF idx_tuple w).length = P := by
      refine signal_wavelet_conv_length E ts WF idx_tuple w hE ?_ hrow
      simpa [hWF] using hwW
    simp only [trimmed_coefs, trim_offsets, hvl]
    rw [List.length_drop, List.length_take, hconv]
    omega
  refine ⟨WF, hok, htrim, ?_⟩
  intro out arr hfil hoa idx_tuple w r hr
  have hfeq : MorletWaveletFilter.filter E cfg ts =
      .ok (build_output_arrays cfg ts (filter_raw_pow E cfg ts WF)
        (filter_raw_phase E cfg ts WF) ts.timeCoord) := by
    unfold MorletWaveletFilter.filter
    rw [hok]
  rw [hfeq, Except.ok.injEq] at hfil
  obtain ⟨a, hpa, hrows⟩ :=
    build_output_arrays_rows cfg ts _ _ _ out arr hfil hoa
  rw [hrows] at hr
  have hwlt : w < WF.wavelet_fft_array.length → w < WF.convolution_size_array.length := by
    simp [hWF]
  cases hpa with
  | inl hp =>
    unfold filter_raw_pow at hp
    rw [Option.map_eq_some'] at hp
    obtain ⟨a₀, _, rfl⟩ := hp
    by_cases hc : idx_tuple ∈ index_tuples ts.leadingShape ∧
        w < WF.wavelet_fft_array.length
    · simp only [if_pos hc] at hr
      rw [(filter_loop_body_row_length E cfg ts WF idx_tuple w).1 r hr]
      exact htrim idx_tuple w (hwlt hc.2)
    · simp only [if_neg hc] at hr
      exact absurd hr (by simp)
  | inr hp =>
    unfold filter_raw_phase at hp
    rw [Option.map_eq_some'] at hp
    obtain ⟨a₀, _, rfl⟩ := hp
    by_cases hc : idx_tuple ∈ index_tuples ts.leadingShape ∧
        w < WF.wavelet_fft_array.length
    · simp only [if_pos hc] at hr
      rw [(filter_loop_body_row_length E cfg ts WF idx_tuple w).2 r hr]
      exact htrim idx_tuple w (hwlt hc.2)
    · simp only [if_neg hc] at hr
      exact absurd hr (by simp)

theorem trim_yields_original_time_length_witness :
    ∃ wf, compute_wavelet_ffts exampleExternals exampleConfig exampleSeries = .ok wf ∧
      (∀ idx_tuple w, w < wf.convolution_size_array.length →
        (trimmed_coefs exampleExternals exampleSeries wf idx_tuple w).length =
          exampleSeries.timeLen) ∧
      ∀ out arr,
        MorletWaveletFilter.filter exampleExternals exampleConfig exampleSeries =
          .ok (some out) →
        out.1 = some arr ∨ out.2 = some arr →
        ∀ idx_tuple w r, arr.rows idx_tuple w = some r →
          r.length = exampleSeries.timeLen :=
  trim_yields_original_time_length exampleExternals exampleConfig exampleSeries 1
    exampleExternals_ok rfl (by decide)
    (by
      intro k hk
      simp only [exampleExternals, List.mem_singleton] at hk
      subst hk
      simp)

/-! ### The four-quadrant arctangent and `Complex.arg` -/

theorem sqrt_one_add_div_sq {x : ℝ} (y : ℝ) (hx : x ≠ 0) :
    Real.sqrt (1 + (y / x) ^ 2) = Real.sqrt (x ^ 2 + y ^ 2) / |x| := by
  have h1 : 1 + (y / x) ^ 2 = (x ^ 2 + y ^ 2) / x ^ 2 := by
    field_simp
  rw [h1, Real.sqrt_div (by positivity), Real.sqrt_sq_eq_abs]

/-- The cosine and sine of `atan2 y x`: the angle points at `(x, y)`. -/
theorem cos_sin_atan2 (y x : ℝ) (h : ¬(x = 0 ∧ y = 0)) :
    Real.cos (atan2 y x) = x / Real.sqrt (x ^ 2 + y ^ 2) ∧
      Real.sin (atan2 y x) = y / Real.sqrt (x ^ 2 + y ^ 2) := by
  have hs : ∀ a b : ℝ, a ≠ 0 → 0 < Real.sqrt (a ^ 2 + b ^ 2) := by
    intro a b ha
    have : (0:ℝ) < a ^ 2 + b ^ 2 := by positivity
    exact Real.sqrt_pos.mpr this
  rcases lt_trichotomy x 0 with hx | hx | hx
  · -- x < 0
    have hsx := hs x y (ne_of_lt hx)
    have hcos : Real.cos (Real.arctan (y / x)) = -x / Real.sqrt (x ^ 2 + y ^ 2) := by
      rw [Real.cos_arctan, sqrt_one_add_div_sq y (ne_of_lt hx), abs_of_neg hx,
        one_div_div]
    have hsin : Real.sin (Real.arctan (y / x)) = -y / Real.sqrt (x ^ 2 + y ^ 2) := by
      rw [Real.sin_arctan, sqrt_one_add_div_sq y (ne_of_lt hx), abs_of_neg hx,
        div_div_eq_mul_div, mul_neg, div_mul_cancel₀ _ (ne_of_lt hx), neg_div]
    unfold atan2
    rw [if_neg (by linarith), if_pos hx]
    by_cases hy : 0 ≤ y
    · rw [if_pos hy, Real.cos_add_pi, Real.sin_add_pi, hcos, hsin]
      constructor <;> ring
    · rw [if_neg hy, Real.cos_sub_pi, Real.sin_sub_pi, hcos, hsin]
      constructor <;> ring
  · -- x = 0, so y ≠ 0
    subst hx
    have hy : y ≠ 0 := fun hy => h ⟨rfl, hy⟩
    have h0 : Real.sqrt (0 ^ 2 + y ^ 2) = |y| := by
      rw [show (0:ℝ) ^ 2 + y ^ 2 = y ^ 2 by ring, Real.sqrt_sq_eq_abs]
    unfold atan2
    rw [if_neg (lt_irrefl 0), if_neg (lt_irrefl 0)]
    rcases lt_trichotomy y 0 with hy' | hy' | hy'
    · rw [if_neg (by linarith), if_pos hy', Real.cos_neg, Real.sin_neg,
        Real.cos_pi_div_two, Real.sin_pi_div_two, h0, abs_of_neg hy']
      constructor
      · rw [zero_div]
      · field_simp
    · exact absurd hy' hy
    · rw [if_pos hy', Real.cos_pi_div_two, Real.sin_pi_div_two, h0,
        abs_of_pos hy']
      constructor
      · rw [zero_div]
      · field_simp
  · -- 0 < x
    have hsx := hs x y (ne_of_gt hx)
    unfold atan2
    rw [if_pos hx, Real.cos_arctan, Real.sin_arctan,
      sqrt_one_add_div_sq y (ne_of_gt hx), abs_of_pos hx, one_div_div]
    constructor
    · rfl
    · field_simp

/-- `atan2` lands in `(−π, π]`. -/
theorem atan2_mem_Ioc (y x : ℝ) :
    atan2 y x ∈ Set.Ioc (-Real.pi) Real.pi := by
  have hpi := Real.pi_pos
  have harc := fun t : ℝ => Real.arctan_mem_Ioo t
  unfold atan2
  rcases lt_trichotomy x 0 with hx | hx | hx
  · rw [if_neg (by linarith), if_pos hx]
    by_cases hy : 0 ≤ y
    · rw [if_pos hy]
      have hd : y / x ≤ 0 := div_nonpos_iff.mpr (Or.inl ⟨hy, le_of_lt hx⟩)
      have hle : Real.arctan (y / x) ≤ 0 := by
        have := Real.arctan_strictMono.monotone hd
        rwa [Real.arctan_zero] at this
      have h1 := (harc (y / x)).1
      constructor <;> linarith
    · rw [if_neg hy]
      push_neg at hy
      have hd : 0 < y / x := div_pos_of_neg_of_neg hy hx
      have hgt : 0 < Real.arctan (y / x) := by
        have := Real.arctan_strictMono hd
        rwa [Real.arctan_zero] at this
      have h2 := (harc (y / x)).2
      constructor <;> linarith
  · subst hx
    rw [if_neg (lt_irrefl 0), if_neg (lt_irrefl 0)]
    by_cases hy : 0 < y
    · rw [if_pos hy]
      constructor <;> linarith
    · rw [if_neg hy]
      by_cases hy' : y < 0
      · rw [if_pos hy']
        constructor <;> linarith
      · rw [if_neg hy']
        constructor <;> linarith
  · rw [if_pos hx]
    have h1 := (harc (y / x)).1
    have h2 := (harc (y / x)).2
    constructor <;> linarith

/-- numpy's `angle` — the code's phase — is the spec's `atan2(imag, real)`:
`Complex.arg` agrees with `atan2` everywhere. -/
theorem atan2_eq_arg (z : ℂ) : atan2 z.im z.re = Complex.arg z := by
  by_cases hz : z = 0
  · subst hz
    simp [atan2, Complex.arg_zero]
  · have hxy : ¬(z.re = 0 ∧ z.im = 0) := by
      intro h
      exact hz (Complex.ext h.1 h.2)
    obtain ⟨hcos, hsin⟩ := cos_sin_atan2 z.im z.re hxy
    have habs : Complex.abs z = Real.sqrt (z.re ^ 2 + z.im ^ 2) := by
      rw [Complex.abs_apply, Complex.normSq_apply]
      ring_nf
    have hr : 0 < Complex.abs z := Complex.abs.pos hz
    have hzeq : (↑(Complex.abs z) *
        (↑(Real.cos (atan2 z.im z.re)) +
          ↑(Real.sin (atan2 z.im z.re)) * Complex.I) : ℂ) = z := by
      apply Complex.ext
      · simp only [Complex.mul_re, Complex.ofReal_re, Complex.add_re,
          Complex.ofReal_im, Complex.add_im, Complex.mul_im, Complex.I_re,
          Complex.I_im]
        rw [hcos, hsin, habs]
        have hroot : (0:ℝ) < Real.sqrt (z.re ^ 2 + z.im ^ 2) := habs ▸ hr
        field_simp
      · simp only [Complex.mul_re, Complex.ofReal_re, Complex.add_re,
          Complex.ofReal_im, Complex.add_im, Complex.mul_im, Complex.I_re,
          Complex.I_im]
        rw [hcos, hsin, habs]
        have hroot : (0:ℝ) < Real.sqrt (z.re ^ 2 + z.im ^ 2) := habs ▸ hr
        field_simp
    calc atan2 z.im z.re
        = Complex.arg (↑(Complex.abs z) *
            (Complex.cos ↑(atan2 z.im z.re) +
              Complex.sin ↑(atan2 z.im z.re) * Complex.I)) :=
          (Complex.arg_mul_cos_add_sin_mul_I hr (atan2_mem_Ioc z.im z.re)).symm
      _ = Complex.arg z := by
          rw [← Complex.ofReal_cos, ← Complex.ofReal_sin, hzeq]

/-- C3: power is the squared magnitude, phase is `atan2(imag, real)` with
range `(−π, π]`, and the combined mode of lines 100–101 produces exactly the
same power and phase values as the individually requested modes. -/
theorem power_phase_extraction (l : List ℂ) :
    (compute_power_and_phase_fcn "power" l).1 =
      some (l.map fun c => Complex.abs c ^ 2) ∧
    (compute_power_and_phase_fcn "phase" l).2 =
      some (l.map fun c => atan2 c.im c.re) ∧
    (∀ c ∈ l, atan2 c.im c.re ∈ Set.Ioc (-Real.pi) Real.pi) ∧
    (compute_power_and_phase_fcn "both" l).1 =
      (compute_power_and_phase_fcn "power" l).1 ∧
    (compute_power_and_phase_fcn "both" l).2 =
      (compute_power_and_phase_fcn "phase" l).2 := by
  have hfn : (fun c : ℂ => atan2 c.im c.re) = Complex.arg :=
    funext fun z => atan2_eq_arg z
  have hsq : (fun c : ℂ => c.re ^ 2 + c.im ^ 2) =
      fun c : ℂ => Complex.abs c ^ 2 := by
    funext c
    rw [Complex.sq_abs, Complex.normSq_apply]
    ring
  refine ⟨rfl, ?_, ?_, ?_, rfl⟩
  · show (compute_phase l).2 = _
    simp only [compute_phase, hfn]
  · intro c _
    rw [atan2_eq_arg]
    exact Complex.arg_mem_Ioc c
  · show (compute_power_and_phase l).1 = (compute_power l).1
    simp only [compute_power_and_phase, compute_power, hsq]

/-! ### Positioning lemmas for the frequency axis -/

theorem indexOf_insertIdx_self {a : String} :
    ∀ (n : ℕ) (l : List String), a ∉ l → n ≤ l.length →
      (l.insertIdx n a).indexOf a = n
  | 0, l, _, _ => by
      rw [List.insertIdx_zero, List.indexOf_cons_self]
  | n + 1, [], _, h => absurd h (by simp)
  | n + 1, b :: t, hmem, h => by
      rw [List.insertIdx_succ_cons,
        List.indexOf_cons_ne _ (fun hb => hmem (List.mem_cons.mpr (Or.inl hb.symm))),
        indexOf_insertIdx_self n t (fun ht => hmem (List.mem_cons_of_mem b ht))
          (by simpa using h)]

theorem eraseIdx_append_length (l₁ : List String) (b : String) (l₂ : List String) :
    (l₁ ++ b :: l₂).eraseIdx l₁.length = l₁ ++ l₂ := by
  induction l₁ with
  | nil => rfl
  | cons x t ih =>
      simp only [List.cons_append, List.length_cons, List.eraseIdx_cons_succ, ih]

/-- In the dims each output ends up with, "frequency" sits at index
`p mod rank` (Python semantics, hence `Int.emod`), and removing it leaves the
other axes in their original relative order. -/
theorem final_output_dims_spec (leading : List String) (p : ℤ)
    (hfreq : "frequency" ∉ leading) :
    (final_output_dims leading p).indexOf "frequency" =
        (p % ((leading.length : ℤ) + 2)).toNat ∧
      (final_output_dims leading p).eraseIdx
          ((final_output_dims leading p).indexOf "frequency") =
        leading ++ ["time"] := by
  set n : ℤ := (leading.length : ℤ) + 2 with hn
  have hn2 : ((leading ++ ["frequency", "time"]).length : ℤ) = n := by
    simp [List.length_append, hn]
  have hnpos : (0:ℤ) < n := by omega
  have hppos : 0 ≤ p % n := Int.emod_nonneg p (by omega)
  have hplt : p % n < n := Int.emod_lt_of_pos p hnpos
  have hposval :
      ((((leading ++ ["frequency", "time"]).length : ℤ) + p) %
        ((leading ++ ["frequency", "time"]).length : ℤ)).toNat = (p % n).toNat := by
    rw [hn2, add_comm n p, Int.add_emod_self]
  have horig : (leading ++ ["frequency", "time"]).indexOf "frequency" =
      leading.length := by
    rw [List.indexOf_append_of_not_mem hfreq, List.indexOf_cons_self,
      Nat.add_zero]
  have hbase : (leading ++ ["frequency", "time"]).take leading.length ++
      (leading ++ ["frequency", "time"]).drop (leading.length + 1) =
        leading ++ ["time"] := by
    have hsplit : leading ++ ["frequency", "time"] =
        (leading ++ ["frequency"]) ++ ["time"] := by simp
    have hlen1 : leading.length + 1 = (leading ++ ["frequency"]).length := by simp
    rw [List.take_left, hsplit, hlen1, List.drop_left]
  have hfreqbase : "frequency" ∉ leading ++ ["time"] := by
    simp [hfreq]
  unfold final_output_dims transposed_output_dims
  simp only [hposval, horig]
  by_cases hc : (p % n).toNat = leading.length
  · rw [if_neg (by omega : ¬(p % n).toNat ≠ leading.length)]
    rw [if_neg (by simp : ¬([] : List String).length ≠ 0)]
    refine ⟨by rw [horig, hc], ?_⟩
    rw [horig]
    exact eraseIdx_append_length leading "frequency" ["time"]
  · rw [if_pos hc, hbase]
    have hle : (p % n).toNat ≤ (leading ++ ["time"]).length := by
      simp only [List.length_append, List.length_singleton]
      omega
    have hlen : ((leading ++ ["time"]).insertIdx (p % n).toNat "frequency").length =
        (leading ++ ["time"]).length + 1 :=
      List.length_insertIdx _ _ hle
    rw [if_pos (by omega)]
    have hidx : ((leading ++ ["time"]).insertIdx (p % n).toNat "frequency").indexOf
        "frequency" = (p % n).toNat :=
      indexOf_insertIdx_self _ _ hfreqbase hle
    refine ⟨hidx, ?_⟩
    rw [hidx]
    exact List.eraseIdx_insertIdx _ _

/-- C4: for any requested frequency-axis position, including negative values,
every returned output's dims place "frequency" at index `p mod rank`, and the
relative order of all other axes is untouched by the repositioning
transpose. -/
theorem frequency_axis_repositioned (cfg : MorletConfig) (ts : TimeSeriesX)
    (pow phase : Option RawArr) (tax : List ℝ)
    (hda : ts.isDataArray = true)
    (hfreq : "frequency" ∉ ts.leadingDims) :
    ∃ out, build_output_arrays cfg ts pow phase tax = some out ∧
      ∀ arr, out.1 = some arr ∨ out.2 = some arr →
        arr.dims = final_output_dims ts.leadingDims cfg.frequency_dim_pos ∧
        arr.dims.indexOf "frequency" =
          (cfg.frequency_dim_pos % ((ts.leadingDims.length : ℤ) + 2)).toNat ∧
        arr.dims.eraseIdx (arr.dims.indexOf "frequency") =
          ts.leadingDims ++ ["time"] := by
  unfold build_output_arrays
  rw [if_pos hda]
  refine ⟨_, rfl, ?_⟩
  intro arr har
  have hdims : arr.dims = final_output_dims ts.leadingDims cfg.frequency_dim_pos := by
    cases har with
    | inl h =>
      rw [Option.map_eq_some'] at h
      obtain ⟨a, _, rfl⟩ := h
      rfl
    | inr h =>
      rw [Option.map_eq_some'] at h
      obtain ⟨a, _, rfl⟩ := h
      rfl
  rw [hdims]
  exact ⟨rfl, (final_output_dims_spec _ _ hfreq).1,
    (final_output_dims_spec _ _ hfreq).2⟩

theorem frequency_axis_repositioned_witness :
    ∃ out, build_output_arrays exampleConfig exampleSeries none none [] = some out ∧
      ∀ arr, out.1 = some arr ∨ out.2 = some arr →
        arr.dims = final_output_dims exampleSeries.leadingDims
          exampleConfig.frequency_dim_pos ∧
        arr.dims.indexOf "frequency" =
          (exampleConfig.frequency_dim_pos %
            ((exampleSeries.leadingDims.length : ℤ) + 2)).toNat ∧
        arr.dims.eraseIdx (arr.dims.indexOf "frequency") =
          exampleSeries.leadingDims ++ ["time"] :=
  frequency_axis_repositioned exampleConfig exampleSeries none none [] rfl
    (by simp [exampleSeries])

/-! ### Output-size positivity for the mode fallback -/

theorem mem_of_mem_transposed_output_dims {d : String} (leading : List String)
    (p : ℤ) (hd : d ∈ transposed_output_dims leading p) :
    d ∈ leading ++ ["frequency", "time"] := by
  unfold transposed_output_dims at hd
  set dims := leading ++ ["frequency", "time"] with hdims
  set orig := dims.indexOf "frequency" with horig
  set pos := (((dims.length : ℤ) + p) % (dims.length : ℤ)).toNat with hpos
  have hsub : ∀ x, x ∈ dims.take orig ++ dims.drop (orig + 1) → x ∈ dims := by
    intro x hx
    rcases List.mem_append.mp hx with hx | hx
    · exact List.take_subset _ _ hx
    · exact List.drop_subset _ _ hx
  by_cases hc : pos ≠ orig
  · rw [if_pos hc] at hd
    by_cases hb : pos ≤ (dims.take orig ++ dims.drop (orig + 1)).length
    · rcases (List.mem_insertIdx hb).mp hd with hd | hd
      · subst hd
        simp [hdims]
      · exact hsub _ hd
    · push_neg at hb
      rw [List.insertIdx_of_length_lt _ _ _ hb] at hd
      exact hsub _ hd
  · rw [if_neg hc] at hd
    exact absurd hd (List.not_mem_nil d)

/-- The sizes attached to each output are all positive whenever the allocated
shape's entries are. -/
theorem final_sizes_pos (leading : List String) (p : ℤ) (shape : List ℕ)
    (hlen : shape.length = leading.length + 2)
    (hpos : ∀ d ∈ shape, 0 < d) :
    0 < (if (transposed_output_dims leading p).length ≠ 0 then
        transpose_sizes (leading ++ ["frequency", "time"]) shape
          (transposed_output_dims leading p)
      else shape).prod := by
  by_cases htd : (transposed_output_dims leading p).length ≠ 0
  · rw [if_pos htd]
    apply List.prod_pos
    intro x hx
    unfold transpose_sizes at hx
    rw [List.mem_map] at hx
    obtain ⟨d, hd, rfl⟩ := hx
    have hdd : d ∈ leading ++ ["frequency", "time"] :=
      mem_of_mem_transposed_output_dims leading p hd
    have hidx : (leading ++ ["frequency", "time"]).indexOf d < shape.length := by
      rw [hlen]
      have := List.indexOf_lt_length.mpr hdd
      simpa using this
    rw [List.getD_eq_getElem _ _ hidx]
    exact hpos _ (List.getElem_mem hidx)
  · rw [if_neg htd]
    exact List.prod_pos hpos

/-- C5: any output string other than "power"/"phase" — including the empty
default and arbitrary values — selects the combined computation without
raising, and `filter` allocates, fills, and returns both a non-empty power
output and a non-empty phase output. -/
theorem unrecognized_output_mode_computes_both (E : Externals)
    (cfg : MorletConfig) (ts : TimeSeriesX) (s_w : ℕ)
    (hmax : ((E.morlet_multi cfg.freqs cfg.width ts.samplerate).map
      List.length).max? = some s_w)
    (hlen : s_w ≤ ts.timeLen)
    (hp : cfg.output ≠ "power") (hph : cfg.output ≠ "phase")
    (hda : ts.isDataArray = true)
    (hshape : ts.leadingDims.length = ts.leadingShape.length)
    (hfreqs : cfg.freqs ≠ [])
    (htime : 0 < ts.timeLen)
    (hleadpos : ∀ d ∈ ts.leadingShape, 0 < d) :
    ∃ pa ph, MorletWaveletFilter.filter E cfg ts = .ok (some (some pa, some ph)) ∧
      0 < pa.sizes.prod ∧ 0 < ph.sizes.prod := by
  have hok := compute_wavelet_ffts_eq_ok E cfg ts s_w hmax hlen
  have halloc : allocate_output_arrays cfg ts ts.timeLen =
      (some ⟨ts.leadingShape ++ [cfg.freqs.length, ts.timeLen], .float32,
          fun _ _ => none⟩,
        some ⟨ts.leadingShape ++ [cfg.freqs.length, ts.timeLen], .float32,
          fun _ _ => none⟩) := by
    unfold allocate_output_arrays
    rw [if_neg hp, if_neg hph]
  have hposall : ∀ d ∈ ts.leadingShape ++ [cfg.freqs.length, ts.timeLen], 0 < d := by
    intro d hd
    rcases List.mem_append.mp hd with hd | hd
    · exact hleadpos d hd
    · rcases List.mem_cons.mp hd with rfl | hd
      · exact List.length_pos.mpr hfreqs
      · rcases List.mem_cons.mp hd with rfl | hd
        · exact htime
        · exact absurd hd (List.not_mem_nil d)
  have hshlen : (ts.leadingShape ++ [cfg.freqs.length, ts.timeLen]).length =
      ts.leadingDims.length + 2 := by
    simp [hshape]
  have hfil : ∃ pa ph,
      MorletWaveletFilter.filter E cfg ts = .ok (some (some pa, some ph)) ∧
      pa.sizes =
        (if (transposed_output_dims ts.leadingDims cfg.frequency_dim_pos).length ≠ 0 then
          transpose_sizes (ts.leadingDims ++ ["frequency", "time"])
            (ts.leadingShape ++ [cfg.freqs.length, ts.timeLen])
            (transposed_output_dims ts.leadingDims cfg.frequency_dim_pos)
        else ts.leadingShape ++ [cfg.freqs.length, ts.timeLen]) ∧
      ph.sizes =
        (if (transposed_output_dims ts.leadingDims cfg.frequency_dim_pos).length ≠ 0 then
          transpose_sizes (ts.leadingDims ++ ["frequency", "time"])
            (ts.leadingShape ++ [cfg.freqs.length, ts.timeLen])
            (transposed_output_dims ts.leadingDims cfg.frequency_dim_pos)
        else ts.leadingShape ++ [cfg.freqs.length, ts.timeLen]) := by
    unfold MorletWaveletFilter.filter
    rw [hok]
    unfold build_output_arrays
    dsimp only
    rw [if_pos hda]
    unfold filter_raw_pow filter_raw_phase
    rw [halloc]
    exact ⟨_, _, rfl, rfl, rfl⟩
  obtain ⟨pa, ph, h1, h2, h3⟩ := hfil
  refine ⟨pa, ph, h1, ?_, ?_⟩
  · rw [h2]
    exact final_sizes_pos ts.leadingDims cfg.frequency_dim_pos _ hshlen hposall
  · rw [h3]
    exact final_sizes_pos ts.leadingDims cfg.frequency_dim_pos _ hshlen hposall

theorem unrecognized_output_mode_computes_both_witness :
    ∃ pa ph,
      MorletWaveletFilter.filter exampleExternals exampleConfig exampleSeries =
        .ok (some (some pa, some ph)) ∧
      0 < pa.sizes.prod ∧ 0 < ph.sizes.prod :=
  unrecognized_output_mode_computes_both exampleExternals exampleConfig
    exampleSeries 1 rfl (by decide) (by decide) (by decide) rfl rfl
    (by simp [exampleConfig]) (by decide) (by decide)

/-! ### The time coordinate attached to the outputs -/

/-- Every output assembled by `build_output_arrays` carries exactly the
`time_axis` argument as its time coordinate. -/
theorem build_output_arrays_timeCoord (cfg : MorletConfig) (ts : TimeSeriesX)
    (pow phase : Option RawArr) (tax : List ℝ)
    (out : Option OutArray × Option OutArray) (arr : OutArray)
    (h : build_output_arrays cfg ts pow phase tax = some out)
    (har : out.1 = some arr ∨ out.2 = some arr) :
    arr.timeCoord = tax := by
  by_cases hda : ts.isDataArray = true
  · unfold build_output_arrays at h
    rw [if_pos hda, Option.some.injEq] at h
    subst h
    cases har with
    | inl h1 =>
      rw [Option.map_eq_some'] at h1
      obtain ⟨a, _, rfl⟩ := h1
      rfl
    | inr h2 =>
      rw [Option.map_eq_some'] at h2
      obtain ⟨a, _, rfl⟩ := h2
      rfl
  · unfold build_output_arrays at h
    rw [if_neg hda] at h
    exact absurd h (by simp)

/-- C7 counterexample: with resampling configured (positive resamplerate) and
a resampler whose time axis is `[0]`, `resample_time_axis` would return the
resampled axis, yet the outputs of `filter` carry the original axis `[0, 1]`,
not the resampled one — `filter` never consults the resampler. -/
theorem resampler_axis_not_attached_counterexample :
    (0:ℝ) < 1 ∧
    (resample_time_axis exampleExternals exampleSeries 1).1 = [0] ∧
    ∃ pa ph,
      MorletWaveletFilter.filter exampleExternals exampleConfig exampleSeries =
        .ok (some (some pa, some ph)) ∧
      pa.timeCoord = [0, 1] ∧ ph.timeCoord = [0, 1] ∧
      pa.timeCoord ≠ (resample_time_axis exampleExternals exampleSeries 1).1 ∧
      ph.timeCoord ≠ (resample_time_axis exampleExternals exampleSeries 1).1 := by
  have hrs : (resample_time_axis exampleExternals exampleSeries 1).1 = [0] := by
    unfold resample_time_axis
    rw [if_pos (by norm_num : (0:ℝ) < 1)]
    rfl
  refine ⟨by norm_num, hrs, _, _, rfl, rfl, rfl, ?_, ?_⟩ <;>
    · rw [hrs]
      simp [exampleSeries]

/-- C7 (amended): even when a resampler is configured (`resample_time_axis`
would hand back its axis), the time coordinate `filter` attaches to every
returned output is always the original time axis of the input, and the
convolved signal is likewise never resampled. -/
theorem original_time_axis_always_attached (E : Externals) (cfg : MorletConfig)
    (ts : TimeSeriesX) (resamplerate : ℝ)
    (out : Option OutArray × Option OutArray) (arr : OutArray)
    (hrs : 0 < resamplerate)
    (hok : MorletWaveletFilter.filter E cfg ts = .ok (some out))
    (har : out.1 = some arr ∨ out.2 = some arr) :
    (resample_time_axis E ts resamplerate).1 = E.resample ts.timeCoord ∧
      arr.timeCoord = ts.timeCoord := by
  constructor
  · unfold resample_time_axis
    rw [if_pos hrs]
  · unfold MorletWaveletFilter.filter at hok
    cases hcw : compute_wavelet_ffts E cfg ts with
    | error e =>
      rw [hcw] at hok
      exact absurd hok (by simp)
    | ok wf =>
      rw [hcw] at hok
      rw [Except.ok.injEq] at hok
      exact build_output_arrays_timeCoord cfg ts _ _ _ out arr hok har

/-- The output pair `filter` produces on the concrete example input. -/
noncomputable def exampleFilterOut : Option OutArray × Option OutArray :=
  match MorletWaveletFilter.filter exampleExternals exampleConfig exampleSeries with
  | .ok (some o) => o
  | _ => (none, none)

/-- The power output of `filter` on the concrete example input. -/
noncomputable def examplePowOut : OutArray :=
  (exampleFilterOut.1).getD ⟨[], [], [], [], 0, fun _ _ => none, .float32⟩

theorem original_time_axis_always_attached_witness :
    (resample_time_axis exampleExternals exampleSeries 1).1 =
        exampleExternals.resample exampleSeries.timeCoord ∧
      examplePowOut.timeCoord = exampleSeries.timeCoord :=
  original_time_axis_always_attached exampleExternals exampleConfig exampleSeries 1
    exampleFilterOut examplePowOut (by norm_num) rfl (Or.inl rfl)

end Ptsa
